import Mathlib

/-
Verification of the reactive-state-and-effect model of the React-Learning
repository: a lazy-initialized state cell (src/basichooks/src/UseState.js)
and a dependency-gated effect scheduler (src/unnamed/part_000).  The hook
runtime itself (useState/useEffect) is framework code absent from the
repository, so its semantics are modelled from the specification; the
component handlers and constants are embedded from the source files.
-/

/-- JS primitive values appearing in the demo components: numbers and strings. -/
inductive JVal
  | num (n : Int)
  | str (s : String)
  deriving DecidableEq

/-- A JS object, modelled as a partial map from string keys to values;
`none` means the key is absent. -/
abbrev JObj := String → Option JVal

/-- Modelled from the spec: observable events of a state cell's lifetime.
`initRun` marks one invocation of the zero-argument initializer;
`setApplied` marks one committed setter application. -/
inductive CellEvent
  | initRun
  | setApplied
  deriving DecidableEq

/-- Operations performed on a live state cell after its creation:
a re-render of the owning instance, or a setter call with an updater. -/
inductive CellOp (α : Type)
  | rerender
  | set (u : α → α)

/-- A state cell together with the log of lifecycle events so far. -/
structure CellTrace (α : Type) where
  value : α
  events : List CellEvent

/-- Modelled from the spec: cell creation consumes a zero-argument
initializer, invoking it a single time to produce the initial value
(missing from src: the useState runtime; spec section 4.1). -/
def cellCreate {α : Type} (f : Unit → α) : CellTrace α :=
  ⟨f (), [CellEvent.initRun]⟩

/-- Modelled from the spec: a re-render returns the stored value without
consulting the initializer; a setter call replaces the whole stored value
with the updater's result (no merging) and never re-runs the initializer
(missing from src: the useState runtime; spec sections 3 and 4.1). -/
def cellStep {α : Type} (c : CellTrace α) : CellOp α → CellTrace α
  | CellOp.rerender => c
  | CellOp.set u => ⟨u c.value, c.events ++ [CellEvent.setApplied]⟩

/-- Run a cell from creation through a list of operations. -/
def cellRun {α : Type} (f : Unit → α) (ops : List (CellOp α)) : CellTrace α :=
  ops.foldl cellStep (cellCreate f)

/-- Count occurrences of one cell event in a log. -/
def countCellEv (e : CellEvent) : List CellEvent → Nat
  | [] => 0
  | x :: xs => (if x = e then 1 else 0) + countCellEv e xs

/-- Counting distributes over appended logs. -/
theorem countCellEv_append (e : CellEvent) (l₁ l₂ : List CellEvent) :
    countCellEv e (l₁ ++ l₂) = countCellEv e l₁ + countCellEv e l₂ := by
  induction l₁ with
  | nil => simp [countCellEv]
  | cons x xs ih => simp [countCellEv, ih]; omega

/-- Stepping a cell adds no `initRun` event. -/
theorem countInit_cellStep {α : Type} (c : CellTrace α) (op : CellOp α) :
    countCellEv CellEvent.initRun (cellStep c op).events
      = countCellEv CellEvent.initRun c.events := by
  cases op with
  | rerender => rfl
  | set u => simp [cellStep, countCellEv_append, countCellEv]

/-- Folding any operations over a cell preserves the `initRun` count. -/
theorem countInit_foldl {α : Type} (c : CellTrace α) (ops : List (CellOp α)) :
    countCellEv CellEvent.initRun (ops.foldl cellStep c).events
      = countCellEv CellEvent.initRun c.events := by
  induction ops generalizing c with
  | nil => rfl
  | cons op ops ih => rw [List.foldl_cons, ih, countInit_cellStep]

/-- C1: a zero-argument initializer passed to a state cell is invoked exactly
once, at cell creation, and never again across any number of re-renders or
setter calls of the same instance. -/
theorem initializer_runs_once {α : Type} (f : Unit → α) (ops : List (CellOp α)) :
    countCellEv CellEvent.initRun (cellRun f ops).events = 1 := by
  rw [cellRun, countInit_foldl]
  rfl

/-- Modelled from the spec: one render of a component whose state cell is
given a plain value (the result of a call expression): the caller evaluates
the producing expression on every render, while the cell stores a value only
at creation (missing from src: the useState runtime; spec section 4.1).
`evalCount` counts caller-site evaluations; `stored` is the cell's content. -/
structure EagerSim (α : Type) where
  evalCount : Nat
  stored : Option α

/-- One render pass: the producing expression is evaluated (its result on
the i-th evaluation is `g i`), and the cell keeps its stored value if it
already has one, storing the fresh result only on the first render. -/
def eagerRender {α : Type} (g : Nat → α) (s : EagerSim α) : EagerSim α :=
  ⟨s.evalCount + 1, some (s.stored.getD (g s.evalCount))⟩

/-- n render passes of the component, starting before any render. -/
def eagerRenders {α : Type} (g : Nat → α) : Nat → EagerSim α
  | 0 => ⟨0, none⟩
  | n + 1 => eagerRender g (eagerRenders g n)

/-- C8: with a plain-value initializer, the producing expression is evaluated
eagerly on every render (n+1 renders give n+1 evaluations), while the cell
stores only the first render's result and ignores all re-evaluations. -/
theorem eager_init_reevaluated_every_render {α : Type} (g : Nat → α) (n : Nat) :
    (eagerRenders g (n + 1)).evalCount = n + 1 ∧
    (eagerRenders g (n + 1)).stored = some (g 0) := by
  induction n with
  | zero => exact ⟨rfl, rfl⟩
  | succ m ih =>
    refine ⟨?_, ?_⟩
    · show (eagerRender g (eagerRenders g (m + 1))).evalCount = m + 1 + 1
      rw [eagerRender, ih.1]
    · show (eagerRender g (eagerRenders g (m + 1))).stored = some (g 0)
      rw [eagerRender]
      simp [ih.2]

/-- Modelled from the spec: multiple pending functional updates within one
scheduling pass are applied in sequence, each against the most recent
pending value (missing from src: the useState batching runtime; spec
section 4.1). -/
def commitPass {α : Type} (v : α) (us : List (α → α)) : α :=
  us.foldl (fun a u => u a) v

/-- The numeric updater corresponding to `setter(p => p + d)`. -/
def addUpd (d : Int) : Int → Int := fun p => p + d

/-- Committing a list of additive updaters adds the sum of the deltas. -/
theorem commitPass_addUpd (v : Int) (ds : List Int) :
    commitPass v (ds.map addUpd) = v + ds.sum := by
  induction ds generalizing v with
  | nil => simp [commitPass]
  | cons d ds ih =>
    simp only [List.map_cons, commitPass, List.foldl_cons, List.sum_cons]
    have := ih (addUpd d v)
    rw [commitPass] at this
    rw [this, addUpd]
    ring

/-- C4: for a sequence of functional updates `setter(p => p + d_i)` issued
within one scheduling pass, the committed value is the pre-pass value plus
the sum of the deltas, and any reordering of the same deltas commits the
same value. -/
theorem functional_updates_sum (v : Int) (ds es : List Int) (h : ds.Perm es) :
    commitPass v (ds.map addUpd) = v + ds.sum ∧
    commitPass v (es.map addUpd) = commitPass v (ds.map addUpd) := by
  refine ⟨commitPass_addUpd v ds, ?_⟩
  rw [commitPass_addUpd, commitPass_addUpd, h.sum_eq]

/-- C4 witness: deltas [1, -2] against pre-pass value 5, reordered as [-2, 1]. -/
theorem functional_updates_sum_witness :
    commitPass (5 : Int) ([1, -2].map addUpd) = 5 + [1, -2].sum ∧
    commitPass (5 : Int) ([-2, 1].map addUpd) =
      commitPass (5 : Int) ([1, -2].map addUpd) :=
  functional_updates_sum 5 [1, -2] [-2, 1] (by decide)

/-- Build the JS object with exactly the entries of the association list
(an object literal with no spread); listed keys are present, all others
absent. -/
def objOf (entries : List (String × JVal)) : JObj :=
  fun q => (entries.find? (fun e => e.1 = q)).map Prod.snd

/-- The JS spread update: every key of `prev` is carried over, then the
listed entries override (the literal form with a leading spread). -/
def objSpread (prev : JObj) (entries : List (String × JVal)) : JObj :=
  fun q =>
    match (entries.find? (fun e => e.1 = q)).map Prod.snd with
    | some v => some v
    | none => prev q

/-- Read a numeric field of a JS object, as the handlers do with
`prev.count`; a missing or non-numeric field reads as 0 (never exercised
by the demo, whose objects always carry a numeric count). -/
def getNum (o : JObj) (k : String) : Int :=
  match o k with
  | some (JVal.num n) => n
  | _ => 0

/-- The initial object state of the counter component
(src/basichooks/src/UseState.js line 18): count 0, theme blue. -/
def objInit : JObj :=
  objOf [("count", JVal.num 0), ("theme", JVal.str "blue")]

/-- The spread updater of the end-to-end scenario:
`prev => (...prev, count: prev.count+1, theme: "blue")`. -/
def incSpreadUpd (prev : JObj) : JObj :=
  objSpread prev [("count", JVal.num (getNum prev "count" + 1)),
                  ("theme", JVal.str "blue")]

/-- The non-spread updater of the end-to-end scenario:
`prev => (count: prev.count+1)` — an object literal with only the count key
(src/basichooks/src/UseState.js line 22, the commented-out incorrect form). -/
def incLiteralUpd (prev : JObj) : JObj :=
  objOf [("count", JVal.num (getNum prev "count" + 1))]

/-- C5: the setter never merges.  A spread update `(...prev, k: v)` committed
through the cell leaves every key other than `k` exactly as in `prev`; a
bare literal `(k: v)` drops every other key.  Concretely, from
count 0 / theme blue, the spread increment commits count 1 with theme blue
kept, and the non-spread increment commits count 1 with theme absent. -/
theorem setter_never_merges (prev : JObj) (k : String) (v : JVal) (q : String)
    (h : q ≠ k) :
    (cellRun (fun _ => prev) [CellOp.set (fun o => objSpread o [(k, v)])]).value q
      = prev q ∧
    (cellRun (fun _ => prev) [CellOp.set (fun _o => objOf [(k, v)])]).value q
      = none ∧
    (cellRun (fun _ => objInit) [CellOp.set incSpreadUpd]).value "count"
      = some (JVal.num 1) ∧
    (cellRun (fun _ => objInit) [CellOp.set incSpreadUpd]).value "theme"
      = some (JVal.str "blue") ∧
    (cellRun (fun _ => objInit) [CellOp.set incLiteralUpd]).value "count"
      = some (JVal.num 1) ∧
    (cellRun (fun _ => objInit) [CellOp.set incLiteralUpd]).value "theme"
      = none := by
  have hk : ¬ k = q := fun e => h e.symm
  refine ⟨?_, ?_, by decide, by decide, by decide, by decide⟩
  · simp [cellRun, cellCreate, cellStep, objSpread, List.find?, hk]
  · simp [cellRun, cellCreate, cellStep, objOf, List.find?, hk]

/-- C5 witness: key "count", value 9, observed at the distinct key "theme". -/
theorem setter_never_merges_witness :
    (cellRun (fun _ => objInit)
        [CellOp.set (fun o => objSpread o [("count", JVal.num 9)])]).value "theme"
      = objInit "theme" ∧
    (cellRun (fun _ => objInit)
        [CellOp.set (fun _o => objOf [("count", JVal.num 9)])]).value "theme"
      = none ∧
    (cellRun (fun _ => objInit) [CellOp.set incSpreadUpd]).value "count"
      = some (JVal.num 1) ∧
    (cellRun (fun _ => objInit) [CellOp.set incSpreadUpd]).value "theme"
      = some (JVal.str "blue") ∧
    (cellRun (fun _ => objInit) [CellOp.set incLiteralUpd]).value "count"
      = some (JVal.num 1) ∧
    (cellRun (fun _ => objInit) [CellOp.set incLiteralUpd]).value "theme"
      = none :=
  setter_never_merges objInit "count" (JVal.num 9) "theme" (by decide)

/-- The two state cells of the counter component instance
(src/basichooks/src/UseState.js lines 13-18): the numeric `count` cell and
the object `state` cell. -/
structure UseStateInstance where
  count : Int
  state : JObj

/-- `handleIncrement` (src/basichooks/src/UseState.js lines 21-26): commits
`(...prev, count: prev.count+1, theme: "blue")` to the object cell only. -/
def handleIncrement (s : UseStateInstance) : UseStateInstance :=
  { s with state := (objSpread s.state
      [("count", JVal.num (getNum s.state "count" + 1)),
       ("theme", JVal.str "blue")]) }

/-- `handleDecrement` (src/basichooks/src/UseState.js lines 27-30): commits
`(...prev, count: prev.count-1, theme: "red")` to the object cell only. -/
def handleDecrement (s : UseStateInstance) : UseStateInstance :=
  { s with state := (objSpread s.state
      [("count", JVal.num (getNum s.state "count" - 1)),
       ("theme", JVal.str "red")]) }

/-- C9: from any object state carrying count c, handleIncrement commits
count c+1 with theme blue, handleDecrement commits count c-1 with theme
forcibly red (whatever the prior theme was), and neither handler touches
the numeric count cell of the same instance. -/
theorem counter_handlers_commit (s : UseStateInstance) (c : Int)
    (hc : s.state "count" = some (JVal.num c)) :
    (handleIncrement s).state "count" = some (JVal.num (c + 1)) ∧
    (handleIncrement s).state "theme" = some (JVal.str "blue") ∧
    (handleIncrement s).count = s.count ∧
    (handleDecrement s).state "count" = some (JVal.num (c - 1)) ∧
    (handleDecrement s).state "theme" = some (JVal.str "red") ∧
    (handleDecrement s).count = s.count := by
  refine ⟨?_, ?_, rfl, ?_, ?_, rfl⟩ <;>
    simp [handleIncrement, handleDecrement, objSpread, getNum, hc, List.find?]

/-- C9 witness: the instance right after creation, with count cell 1 and
object state count 0 / theme blue. -/
theorem counter_handlers_commit_witness :
    (handleIncrement ⟨1, objInit⟩).state "count" = some (JVal.num (0 + 1)) ∧
    (handleIncrement ⟨1, objInit⟩).state "theme" = some (JVal.str "blue") ∧
    (handleIncrement ⟨1, objInit⟩).count = (⟨1, objInit⟩ : UseStateInstance).count ∧
    (handleDecrement ⟨1, objInit⟩).state "count" = some (JVal.num (0 - 1)) ∧
    (handleDecrement ⟨1, objInit⟩).state "theme" = some (JVal.str "red") ∧
    (handleDecrement ⟨1, objInit⟩).count = (⟨1, objInit⟩ : UseStateInstance).count :=
  counter_handlers_commit ⟨1, objInit⟩ 0 (by decide)

/-- Modelled from the spec: an effect registration's dependency list —
omitted entirely, or an ordered list of tracked values (missing from src:
the useEffect runtime; spec sections 3 and 4.2). -/
inductive Deps
  | omitted
  | list (vals : List JVal)
  deriving DecidableEq

/-- The dependency snapshot retained when an effect runs. -/
def depsSnapshot : Deps → Option (List JVal)
  | Deps.omitted => none
  | Deps.list vs => some vs

/-- Modelled from the spec: the rerun gate — omitted dependencies always
fire; a dependency list fires on the first pass (no snapshot yet) and on
any pass whose values differ by shallow comparison from the snapshot taken
at the previous run (missing from src: the useEffect runtime; spec
section 3). -/
def depsChanged (prev : Option (List JVal)) : Deps → Bool
  | Deps.omitted => true
  | Deps.list vs =>
    match prev with
    | none => true
    | some ps => decide (ps ≠ vs)

/-- The per-registration scheduler state: how many callback runs have
happened, the dependency snapshot from the previous run, and the index of
the run whose cleanup is currently retained (if that run returned one). -/
structure RegState where
  runCount : Nat
  prevDeps : Option (List JVal)
  pending : Option Nat
  deriving DecidableEq

/-- Observable events of one effect registration: the i-th callback run,
and the invocation of the cleanup returned by the i-th run. -/
inductive EffEvent
  | run (i : Nat)
  | cleanup (i : Nat)
  deriving DecidableEq

/-- Modelled from the spec: processing one render pass whose current
dependency value is d; `ret i` tells whether the i-th callback run returns
a cleanup function.  When the gate fires, the retained cleanup (if any) is
invoked strictly before the new callback run, the snapshot is updated, and
the new run's cleanup is retained (missing from src: the useEffect
runtime; spec section 4.2). -/
def effStep (ret : Nat → Bool) (s : RegState) (d : Deps) : RegState × List EffEvent :=
  if depsChanged s.prevDeps d then
    (⟨s.runCount + 1, depsSnapshot d,
        if ret s.runCount then some s.runCount else none⟩,
      (match s.pending with
       | some i => [EffEvent.cleanup i]
       | none => []) ++ [EffEvent.run s.runCount])
  else (s, [])

/-- The scheduler state at mount, before the first render pass. -/
def regInit : RegState := ⟨0, none, none⟩

/-- Process a sequence of render passes, collecting events in order. -/
def effRunPasses (ret : Nat → Bool) (s : RegState) : List Deps → RegState × List EffEvent
  | [] => (s, [])
  | d :: ds =>
    let p := effStep ret s d
    let q := effRunPasses ret p.1 ds
    (q.1, p.2 ++ q.2)

/-- Modelled from the spec: teardown of the owning instance invokes the
retained cleanup unconditionally (missing from src: the useEffect runtime;
spec section 4.2). -/
def effTeardown (s : RegState) : List EffEvent :=
  match s.pending with
  | some i => [EffEvent.cleanup i]
  | none => []

/-- The full event trace of one registration: the given render passes from
mount, then teardown of the owning instance. -/
def effTrace (ret : Nat → Bool) (passes : List Deps) : List EffEvent :=
  (effRunPasses ret regInit passes).2
    ++ effTeardown (effRunPasses ret regInit passes).1

/-- Whether an event is a callback run. -/
def isRun : EffEvent → Bool
  | EffEvent.run _ => true
  | EffEvent.cleanup _ => false

/-- Number of callback runs recorded in an event list. -/
def runsIn (es : List EffEvent) : Nat := es.countP isRun

/-- Count occurrences of one effect event in an event list. -/
def countEv (e : EffEvent) : List EffEvent → Nat
  | [] => 0
  | x :: xs => (if x = e then 1 else 0) + countEv e xs

/-- Event counting distributes over appended lists. -/
theorem countEv_append (e : EffEvent) (l₁ l₂ : List EffEvent) :
    countEv e (l₁ ++ l₂) = countEv e l₁ + countEv e l₂ := by
  induction l₁ with
  | nil => simp [countEv]
  | cons x xs ih => simp [countEv, ih]; omega

/-- Passes whose dependency values all equal the current snapshot leave the
registration untouched and produce no events. -/
theorem effRunPasses_stable (ret : Nat → Bool) (s : RegState) (vs : List JVal)
    (hs : s.prevDeps = some vs) (m : Nat) :
    effRunPasses ret s (List.replicate m (Deps.list vs)) = (s, []) := by
  induction m with
  | zero => rfl
  | succ k ih =>
    have hstep : effStep ret s (Deps.list vs) = (s, []) := by
      simp [effStep, depsChanged, hs]
    simp [List.replicate_succ, effRunPasses, hstep, ih]

/-- C3: with an empty dependency list, the callback runs exactly once over
any positive number of render passes, and that single run happens while
processing the very first pass. -/
theorem empty_deps_runs_once (ret : Nat → Bool) (n : Nat) :
    runsIn (effTrace ret (List.replicate (n + 1) (Deps.list []))) = 1 ∧
    (effStep ret regInit (Deps.list [])).2 = [EffEvent.run 0] := by
  have hstep : effStep ret regInit (Deps.list []) =
      (⟨1, some [], if ret 0 then some 0 else none⟩, [EffEvent.run 0]) := by
    simp [effStep, regInit, depsChanged, depsSnapshot]
  have hrest := effRunPasses_stable ret
    ⟨1, some [], if ret 0 then some 0 else none⟩ [] rfl n
  have hall : effRunPasses ret regInit (List.replicate (n + 1) (Deps.list []))
      = (⟨1, some [], if ret 0 then some 0 else none⟩, [EffEvent.run 0]) := by
    rw [List.replicate_succ]
    simp [effRunPasses, hstep, hrest]
  refine ⟨?_, by rw [hstep]⟩
  rw [effTrace, hall]
  cases h0 : ret 0 <;> simp [effTeardown, h0, runsIn, List.countP, isRun] <;> rfl

/-- C2: for a one-element dependency list [x], once the effect has run (the
snapshot holds the value xprev seen at the previous run), a later pass
reruns the callback iff x differs shallowly from xprev; and when it reruns
while a cleanup from the prior run is retained, that cleanup executes
strictly before the new run's callback. -/
theorem single_dep_rerun_gate (ret : Nat → Bool) (s : RegState)
    (xprev x : JVal) (i : Nat) (hprev : s.prevDeps = some [xprev]) :
    runsIn (effStep ret s (Deps.list [x])).2
      = (if x = xprev then 0 else 1) ∧
    (s.pending = some i → x ≠ xprev →
      (effStep ret s (Deps.list [x])).2
        = [EffEvent.cleanup i, EffEvent.run s.runCount]) := by
  constructor
  · by_cases hx : x = xprev
    · subst hx
      simp [effStep, depsChanged, hprev, runsIn]
    · have hne : ¬ xprev = x := fun e => hx e.symm
      cases hp : s.pending <;>
        simp [effStep, depsChanged, hprev, hx, hne, hp, runsIn, List.countP, isRun] <;>
        rfl
  · intro hp hx
    have hne : ¬ xprev = x := fun e => hx e.symm
    simp [effStep, depsChanged, hprev, hne, hp]

/-- C2 witness: a registration that has run twice with snapshot "posts" and
a live cleanup from run 1, hit by a pass carrying "Posts". -/
theorem single_dep_rerun_gate_witness :
    runsIn (effStep (fun _ => true)
        ⟨2, some [JVal.str "posts"], some 1⟩ (Deps.list [JVal.str "Posts"])).2
      = (if JVal.str "Posts" = JVal.str "posts" then 0 else 1) ∧
    ((⟨2, some [JVal.str "posts"], some 1⟩ : RegState).pending = some 1 →
      JVal.str "Posts" ≠ JVal.str "posts" →
      (effStep (fun _ => true)
          ⟨2, some [JVal.str "posts"], some 1⟩ (Deps.list [JVal.str "Posts"])).2
        = [EffEvent.cleanup 1,
           EffEvent.run (⟨2, some [JVal.str "posts"], some 1⟩ : RegState).runCount]) :=
  single_dep_rerun_gate (fun _ => true)
    ⟨2, some [JVal.str "posts"], some 1⟩ (JVal.str "posts") (JVal.str "Posts") 1 rfl

/-- Invariant tying a registration's state to the events emitted so far:
the runs seen are exactly 0..runCount-1; a retained cleanup index comes
from a run that returned one; and the cleanup of every producing run has
been invoked exactly once, except the retained one, not yet invoked. -/
def SchedInv (ret : Nat → Bool) (s : RegState) (es : List EffEvent) : Prop :=
  (∀ j, EffEvent.run j ∈ es ↔ j < s.runCount) ∧
  (∀ i, s.pending = some i → ret i = true ∧ i < s.runCount) ∧
  (∀ j, countEv (EffEvent.cleanup j) es =
    if j < s.runCount ∧ ret j = true ∧ s.pending ≠ some j then 1 else 0)

/-- The invariant holds at mount with an empty event log. -/
theorem schedInv_init (ret : Nat → Bool) : SchedInv ret regInit [] := by
  refine ⟨?_, ?_, ?_⟩
  · intro j
    simp [regInit]
  · intro i hi
    simp [regInit] at hi
  · intro j
    simp [regInit, countEv]

/-- Processing one render pass preserves the invariant. -/
theorem schedInv_step (ret : Nat → Bool) (s : RegState) (es : List EffEvent)
    (d : Deps) (h : SchedInv ret s es) :
    SchedInv ret (effStep ret s d).1 (es ++ (effStep ret s d).2) := by
  obtain ⟨hrun, hpend, hcount⟩ := h
  cases hd : depsChanged s.prevDeps d with
  | false =>
    have hstep : effStep ret s d = (s, []) := by
      simp [effStep, hd]
    rw [hstep]
    exact ⟨by simpa using hrun, hpend, by simpa using hcount⟩
  | true =>
    cases hp : s.pending with
    | none =>
      have hstep : effStep ret s d =
          (⟨s.runCount + 1, depsSnapshot d,
             if ret s.runCount then some s.runCount else none⟩,
           [EffEvent.run s.runCount]) := by
        simp [effStep, hd, hp]
      rw [hstep]
      refine ⟨?_, ?_, ?_⟩
      · intro j
        rw [List.mem_append, hrun j]
        simp only [List.mem_singleton, EffEvent.run.injEq]
        show j < s.runCount ∨ j = s.runCount ↔ j < s.runCount + 1
        omega
      · intro i hi
        have hi' : (if ret s.runCount then some s.runCount else none)
            = some i := hi
        cases hr : ret s.runCount with
        | false => rw [hr] at hi'; simp at hi'
        | true =>
          rw [hr] at hi'
          simp only [if_true, Option.some.injEq] at hi'
          subst hi'
          exact ⟨hr, by show s.runCount < s.runCount + 1; omega⟩
      · intro j
        rw [countEv_append, hcount j, hp]
        have htail : countEv (EffEvent.cleanup j) [EffEvent.run s.runCount]
            = 0 := by
          simp [countEv]
        rw [htail]
        show (if j < s.runCount ∧ ret j = true ∧ (none : Option Nat) ≠ some j
            then 1 else 0) + 0
          = if j < s.runCount + 1 ∧ ret j = true ∧
              (if ret s.runCount then some s.runCount else none) ≠ some j
            then 1 else 0
        by_cases hjn : j = s.runCount
        · subst hjn
          cases hr : ret s.runCount with
          | false => simp [hr]
          | true => simp [hr]
        · have hpend' : (if ret s.runCount then some s.runCount else none)
              ≠ some j := by
            cases hr : ret s.runCount <;> simp <;> omega
          have hlt : (j < s.runCount) ↔ (j < s.runCount + 1) := by omega
          simp only [ne_eq, Option.some.injEq, hpend', not_false_iff,
            and_true, reduceCtorEq, hlt]
          exact Nat.add_zero _
    | some i =>
      obtain ⟨hri, hin⟩ := hpend i hp
      have hstep : effStep ret s d =
          (⟨s.runCount + 1, depsSnapshot d,
             if ret s.runCount then some s.runCount else none⟩,
           [EffEvent.cleanup i, EffEvent.run s.runCount]) := by
        simp [effStep, hd, hp]
      rw [hstep]
      refine ⟨?_, ?_, ?_⟩
      · intro j
        have hmem : EffEvent.run j ∈ [EffEvent.cleanup i, EffEvent.run s.runCount]
            ↔ j = s.runCount := by
          simp
        rw [List.mem_append, hrun j, hmem]
        show j < s.runCount ∨ j = s.runCount ↔ j < s.runCount + 1
        omega
      · intro k hk
        have hk' : (if ret s.runCount then some s.runCount else none)
            = some k := hk
        cases hr : ret s.runCount with
        | false => rw [hr] at hk'; simp at hk'
        | true =>
          rw [hr] at hk'
          simp only [if_true, Option.some.injEq] at hk'
          subst hk'
          exact ⟨hr, by show s.runCount < s.runCount + 1; omega⟩
      · intro j
        rw [countEv_append, hcount j, hp]
        have htail : countEv (EffEvent.cleanup j)
            [EffEvent.cleanup i, EffEvent.run s.runCount]
            = if i = j then 1 else 0 := by
          simp [countEv, EffEvent.cleanup.injEq]
        rw [htail]
        show (if j < s.runCount ∧ ret j = true ∧ (some i : Option Nat) ≠ some j
            then 1 else 0) + (if i = j then 1 else 0)
          = if j < s.runCount + 1 ∧ ret j = true ∧
              (if ret s.runCount then some s.runCount else none) ≠ some j
            then 1 else 0
        by_cases hij : i = j
        · subst hij
          have hpend' : (if ret s.runCount then some s.runCount else none)
              ≠ some i := by
            cases hr : ret s.runCount <;> simp <;> omega
          simp only [ne_eq, Option.some.injEq, not_true, and_false, if_false,
            if_pos rfl, hpend', not_false_iff, and_true]
          simp [hri, Nat.lt_succ_of_lt hin]
        · by_cases hjn : j = s.runCount
          · subst hjn
            cases hr : ret s.runCount with
            | false => simp [hr, hij]
            | true => simp [hr, hij]
          · have hpend' : (if ret s.runCount then some s.runCount else none)
                ≠ some j := by
              cases hr : ret s.runCount <;> simp <;> omega
            have hij' : (some i : Option Nat) ≠ some j := by simp [hij]
            have hlt : (j < s.runCount) ↔ (j < s.runCount + 1) := by omega
            simp only [ne_eq, hij', not_false_iff, and_true, hpend',
              hij, if_false, Nat.add_zero, hlt]

/-- Processing any sequence of render passes preserves the invariant. -/
theorem schedInv_passes (ret : Nat → Bool) (s : RegState) (es : List EffEvent)
    (ds : List Deps) (h : SchedInv ret s es) :
    SchedInv ret (effRunPasses ret s ds).1
      (es ++ (effRunPasses ret s ds).2) := by
  induction ds generalizing s es with
  | nil =>
    show SchedInv ret s (es ++ [])
    rw [List.append_nil]
    exact h
  | cons d ds ih =>
    have h2 := ih (effStep ret s d).1 (es ++ (effStep ret s d).2)
      (schedInv_step ret s es d h)
    show SchedInv ret (effRunPasses ret (effStep ret s d).1 ds).1
      (es ++ ((effStep ret s d).2
        ++ (effRunPasses ret (effStep ret s d).1 ds).2))
    rw [← List.append_assoc]
    exact h2

/-- An event list is well formed when every cleanup invocation is
immediately followed by a callback run, except possibly a final teardown
cleanup closing the list. -/
def wellFormed : List EffEvent → Bool
  | [] => true
  | [EffEvent.cleanup _] => true
  | EffEvent.cleanup _ :: e :: rest => isRun e && wellFormed (e :: rest)
  | EffEvent.run _ :: rest => wellFormed rest

/-- The events of one render pass prefix any well-formed continuation
without disturbing well-formedness. -/
theorem wellFormed_effStep (ret : Nat → Bool) (s : RegState) (d : Deps)
    (rest : List EffEvent) :
    wellFormed ((effStep ret s d).2 ++ rest) = wellFormed rest := by
  cases hd : depsChanged s.prevDeps d with
  | false => simp [effStep, hd]
  | true =>
    cases hp : s.pending with
    | none => simp [effStep, hd, hp, wellFormed]
    | some i => simp [effStep, hd, hp, wellFormed, isRun]

/-- The events of any sequence of render passes prefix a continuation
without disturbing well-formedness. -/
theorem wellFormed_passes (ret : Nat → Bool) (s : RegState) (ds : List Deps)
    (rest : List EffEvent) :
    wellFormed ((effRunPasses ret s ds).2 ++ rest) = wellFormed rest := by
  induction ds generalizing s with
  | nil => simp [effRunPasses]
  | cons d ds ih =>
    show wellFormed (((effStep ret s d).2
      ++ (effRunPasses ret (effStep ret s d).1 ds).2) ++ rest) = wellFormed rest
    rw [List.append_assoc, wellFormed_effStep, ih]

/-- C6: over the whole life of a registration (render passes then teardown),
the cleanup of run j is invoked exactly once if run j happened and returned
a cleanup, and never otherwise; and the trace is well formed — every
cleanup invocation immediately precedes the registration's next callback
run, except a final cleanup at teardown. -/
theorem cleanup_invoked_exactly_once (ret : Nat → Bool) (passes : List Deps)
    (j : Nat) :
    countEv (EffEvent.cleanup j) (effTrace ret passes)
      = (if EffEvent.run j ∈ effTrace ret passes ∧ ret j = true
         then 1 else 0) ∧
    wellFormed (effTrace ret passes) = true := by
  have hinv := schedInv_passes ret regInit [] passes (schedInv_init ret)
  rw [List.nil_append] at hinv
  obtain ⟨hrun, hpend, hcount⟩ := hinv
  constructor
  · have hmem : (EffEvent.run j ∈ effTrace ret passes)
        ↔ j < (effRunPasses ret regInit passes).1.runCount := by
      rw [effTrace, List.mem_append, hrun j]
      cases hp : (effRunPasses ret regInit passes).1.pending with
      | none => simp [effTeardown, hp]
      | some i => simp [effTeardown, hp]
    rw [if_congr (and_congr_left fun _ => hmem) rfl rfl]
    rw [effTrace, countEv_append, hcount j]
    cases hp : (effRunPasses ret regInit passes).1.pending with
    | none =>
      simp only [effTeardown, hp, countEv, Nat.add_zero, ne_eq,
        reduceCtorEq, not_false_iff, and_true]
    | some i =>
      obtain ⟨hri, hin⟩ := hpend i hp
      have htd : countEv (EffEvent.cleanup j) [EffEvent.cleanup i]
          = if i = j then 1 else 0 := by
        simp [countEv, EffEvent.cleanup.injEq]
      rw [show effTeardown (effRunPasses ret regInit passes).1
          = [EffEvent.cleanup i] by simp [effTeardown, hp], htd]
      by_cases hij : i = j
      · subst hij
        simp [hri, hin]
      · have hij' : (some i : Option Nat) ≠ some j := by simp [hij]
        simp only [ne_eq, hij', not_false_iff, and_true, hij, if_false,
          Nat.add_zero]
  · rw [effTrace, wellFormed_passes]
    cases hp : (effRunPasses ret regInit passes).1.pending with
    | none => simp [effTeardown, hp, wellFormed]
    | some i => simp [effTeardown, hp, wellFormed]

/-- Modelled from the spec: a settled JS promise — resolved with a value,
or rejected (missing from src: the host promise runtime; spec section 6). -/
inductive Promise (α : Type)
  | resolved (a : α)
  | rejected

/-- Modelled from the spec: JS promise chaining with an optional rejection
handler slot — the fulfillment handler maps a resolved value, and a
rejection propagates down the chain unless a rejection handler is
installed (missing from src: the host promise runtime; spec section 6). -/
def promiseThen {α β : Type} (p : Promise α) (onF : α → β)
    (onR : Option (Unit → β)) : Promise β :=
  match p with
  | Promise.resolved a => Promise.resolved (onF a)
  | Promise.rejected =>
    match onR with
    | some h => Promise.resolved (h ())
    | none => Promise.rejected

/-- Observable actions of the data-fetching effect body: a write of the
items cell, or a rejection handler running (the body installs none). -/
inductive FetchEvent
  | setItemsWrite (v : List JVal)
  | errorHandlerRun
  deriving DecidableEq

/-- The data-fetching effect body (src/unnamed/part_000 lines 7-9): a fetch
chained through then(response => response.json()) and then(json =>
setItems(json)), with no rejection handler installed on either step; the
actions the chain performs are returned as events, and a rejection
reaching the end of the chain is unobserved and performs nothing. -/
def dataFetchEvents {α : Type} (fetched : Promise α)
    (toJson : α → List JVal) : List FetchEvent :=
  match promiseThen (promiseThen fetched toJson none)
      (fun j => FetchEvent.setItemsWrite j) none with
  | Promise.resolved e => [e]
  | Promise.rejected => []

/-- Apply the effect body's actions to the items state cell. -/
def applyFetchEvents (items : List JVal) : List FetchEvent → List JVal
  | [] => items
  | FetchEvent.setItemsWrite v :: es => applyFetchEvents v es
  | FetchEvent.errorHandlerRun :: es => applyFetchEvents items es

/-- C7: a rejected fetch is unobserved — the effect body performs no
action, the items cell keeps the value it held before, and no error
handler ever runs for any fetch outcome. -/
theorem rejected_fetch_unobserved {α : Type} (toJson : α → List JVal)
    (items : List JVal) :
    dataFetchEvents (Promise.rejected : Promise α) toJson = [] ∧
    applyFetchEvents items
      (dataFetchEvents (Promise.rejected : Promise α) toJson) = items ∧
    (∀ p : Promise α, FetchEvent.errorHandlerRun ∉ dataFetchEvents p toJson) := by
  refine ⟨rfl, rfl, ?_⟩
  intro p
  cases p <;> simp [dataFetchEvents, promiseThen]

/-- The initial resource type of the data-fetch component
(src/unnamed/part_000 line 3): the lowercase string posts. -/
def initialResourceType : String := "posts"

/-- The values the three buttons write into the resourceType cell
(src/unnamed/part_000 lines 53-55): capitalized strings. -/
def buttonValues : List String := ["Posts", "Users", "Comments"]

/-- The URL the fetch effect targets for a given resource type
(src/unnamed/part_000 line 7). -/
def fetchUrl (resourceType : String) : String :=
  "https://jsonplaceholder.typicode.com/" ++ resourceType

/-- C10: clicking a button whose value equals the current resourceType does
not rerun the fetch effect; but the initial value is the lowercase posts,
which is none of the button values, so the first click of the Posts button
finds the dependency shallow-unequal, reruns the effect, and targets a
different URL path than the mount-time fetch. -/
theorem resource_type_case_mismatch (ret : Nat → Bool) (b : String)
    (s : RegState) (hb : b ∈ buttonValues)
    (hs : s.prevDeps = some [JVal.str b]) :
    (effStep ret s (Deps.list [JVal.str b])).2 = [] ∧
    initialResourceType = "posts" ∧
    initialResourceType ∉ buttonValues ∧
    runsIn (effStep ret
        (effStep ret regInit (Deps.list [JVal.str initialResourceType])).1
        (Deps.list [JVal.str "Posts"])).2 = 1 ∧
    fetchUrl initialResourceType ≠ fetchUrl "Posts" := by
  refine ⟨?_, rfl, by decide, ?_, by decide⟩
  · simp [effStep, depsChanged, hs]
  · have hstep1 : (effStep ret regInit (Deps.list [JVal.str initialResourceType])).1
        = ⟨1, some [JVal.str "posts"], if ret 0 then some 0 else none⟩ := by
      simp [effStep, regInit, depsChanged, depsSnapshot, initialResourceType]
    rw [hstep1]
    have hgate : depsChanged (some [JVal.str "posts"])
        (Deps.list [JVal.str "Posts"]) = true := by decide
    cases h0 : ret 0 with
    | false =>
      simp [effStep, hgate, h0, runsIn, List.countP, isRun]
      rfl
    | true =>
      simp [effStep, hgate, h0, runsIn, List.countP, isRun]
      rfl

/-- C10 witness: the Users button clicked while resourceType is already
"Users", under a registration that has run once and retains no cleanup. -/
theorem resource_type_case_mismatch_witness :
    (effStep (fun _ => false) ⟨1, some [JVal.str "Users"], none⟩
        (Deps.list [JVal.str "Users"])).2 = [] ∧
    initialResourceType = "posts" ∧
    initialResourceType ∉ buttonValues ∧
    runsIn (effStep (fun _ => false)
        (effStep (fun _ => false) regInit
          (Deps.list [JVal.str initialResourceType])).1
        (Deps.list [JVal.str "Posts"])).2 = 1 ∧
    fetchUrl initialResourceType ≠ fetchUrl "Posts" :=
  resource_type_case_mismatch (fun _ => false) "Users"
    ⟨1, some [JVal.str "Users"], none⟩ (by decide) rfl
